import Mathlib

/-!
Shallow embedding of `stats/aggregation_value.go` (OpenCensus instrumentation-go).

Modelling conventions:
* `float64` values are modelled as exact rationals `ℚ`; the arithmetic in the
  aggregators (Welford updates, merges, variance) is therefore ideal-precision.
* `int64` counters are modelled as `ℤ` (the counts reachable in practice are far
  below the overflow range).
* The Go sentinels `math.MaxFloat64` and `math.SmallestNonzeroFloat64` are the
  exact rationals `(2^53 - 1) * 2^971` and `2^(-1074)`.
* `interface{}` samples are the sum type `Sample` (int64, float64, or other).
* A dynamic `AggregationValue` argument is the sum type `AggregationValue`;
  `nilDist` models a non-nil interface holding a nil
  `*AggregationDistributionValue` (it passes the type assertion in Go).
* Methods that would panic in Go on some modelled input return `Option`,
  with `none` standing for the panic.
-/

/-- Exact value of Go `math.MaxFloat64`. -/
def maxFloat64 : ℚ := (2 ^ 53 - 1) * 2 ^ 971

/-- Exact value of Go `math.SmallestNonzeroFloat64` (note: positive). -/
def smallestNonzeroFloat64 : ℚ := 1 / 2 ^ 1074

/-- A sample passed to `addSample` as Go `interface{}`. -/
inductive Sample where
  | i64 (v : ℤ)
  | f64 (v : ℚ)
  | other
deriving DecidableEq

/-- The numeric coercion performed by the type switch in
`AggregationDistributionValue.addSample`: int64 and float64 are accepted,
anything else is rejected. -/
def Sample.toFloat : Sample → Option ℚ
  | Sample.i64 v => some (v : ℚ)
  | Sample.f64 v => some v
  | Sample.other => none

/-- State of `AggregationDistributionValue` (aggregation_value.go lines 86-109). -/
structure AggregationDistributionValue where
  count : ℤ
  min : ℚ
  max : ℚ
  mean : ℚ
  sumOfSquaredDev : ℚ
  countPerBucket : List ℤ
  bounds : List ℚ
deriving DecidableEq

/-- A dynamic `AggregationValue` argument: a `*AggregationCountValue`, a
`*AggregationDistributionValue`, or a nil `*AggregationDistributionValue`. -/
inductive AggregationValue where
  | count (c : ℤ)
  | dist (d : AggregationDistributionValue)
  | nilDist
deriving DecidableEq

/-- `newAggregationDistributionValue` (lines 126-133). -/
def newAggregationDistributionValue (bounds : List ℚ) : AggregationDistributionValue where
  count := 0
  min := maxFloat64
  max := smallestNonzeroFloat64
  mean := 0
  sumOfSquaredDev := 0
  countPerBucket := List.replicate (bounds.length + 1) 0
  bounds := bounds

/-- Index of the bucket a sample falls into: the Go loop in
`incrementBucketCount` (lines 216-222) returns the first index `i` with
`f < bounds[i]`, and `len(bounds)` when there is none.  The empty-bounds
special case (lines 211-214) also yields index 0. -/
def bucketIndex : List ℚ → ℚ → ℕ
  | [], _ => 0
  | b :: bs, f => if f < b then 0 else bucketIndex bs f + 1

/-- Increment the element of a list at position `i` (Go `countPerBucket[i]++`). -/
def incAt : List ℤ → ℕ → List ℤ
  | [], _ => []
  | c :: cs, 0 => (c + 1) :: cs
  | c :: cs, n + 1 => c :: incAt cs n

/-- `AggregationDistributionValue.incrementBucketCount` (lines 210-223). -/
def AggregationDistributionValue.incrementBucketCount
    (a : AggregationDistributionValue) (f : ℚ) : AggregationDistributionValue :=
  { a with countPerBucket := incAt a.countPerBucket (bucketIndex a.bounds f) }

/-- `AggregationDistributionValue.addSample` (lines 178-208). -/
def AggregationDistributionValue.addSample
    (a : AggregationDistributionValue) (v : Sample) : AggregationDistributionValue :=
  match v.toFloat with
  | none => a
  | some f =>
    let a1 := { a with
      min := if f < a.min then f else a.min
      max := if f > a.max then f else a.max
      count := a.count + 1 }
    let a2 := a1.incrementBucketCount f
    if a2.count = (1 : ℤ) then
      { a2 with mean := f }
    else
      let oldMean := a2.mean
      let newMean := a2.mean + (f - a2.mean) / (a2.count : ℚ)
      { a2 with
        mean := newMean
        sumOfSquaredDev := a2.sumOfSquaredDev + (f - oldMean) * (f - newMean) }

/-- `AggregationDistributionValue.Sum` (line 148): `mean * float64(count)`. -/
def AggregationDistributionValue.Sum (a : AggregationDistributionValue) : ℚ :=
  a.mean * (a.count : ℚ)

/-- Element-wise addition `a.countPerBucket[i] += other.countPerBucket[i]`
for `i := range other.countPerBucket` (lines 269-271).  The second equation is
unreachable for same-length inputs (in Go it would be an index panic). -/
def addBuckets : List ℤ → List ℤ → List ℤ
  | xs, [] => xs
  | [], _ :: _ => []
  | x :: xs, y :: ys => (x + y) :: addBuckets xs ys

/-- Body of `AggregationDistributionValue.addToIt` after the successful type
assertion (lines 253-271): the merge of two distribution states. -/
def AggregationDistributionValue.mergeDist
    (a other : AggregationDistributionValue) : AggregationDistributionValue :=
  if other.count = 0 then a
  else
    let min1 := if other.min < a.min then other.min else a.min
    let max1 := if other.max > a.max then other.max else a.max
    let delta := other.mean - a.mean
    let sumSq1 := a.sumOfSquaredDev + other.sumOfSquaredDev +
      delta ^ 2 * ((a.count * other.count : ℤ) : ℚ) / ((a.count + other.count : ℤ) : ℚ)
    let mean1 := (a.Sum + other.Sum) / ((a.count + other.count : ℤ) : ℚ)
    { a with
      min := min1
      max := max1
      sumOfSquaredDev := sumSq1
      mean := mean1
      count := a.count + other.count
      countPerBucket := addBuckets a.countPerBucket other.countPerBucket }

/-- `AggregationDistributionValue.addToIt` (lines 247-272).  A `count`
argument fails the type assertion and the receiver is returned unchanged; a
nil `*AggregationDistributionValue` passes the assertion and the subsequent
`other.count` dereference panics, modelled as `none`. -/
def AggregationDistributionValue.addToIt
    (a : AggregationDistributionValue) (av : AggregationValue) :
    Option AggregationDistributionValue :=
  match av with
  | AggregationValue.dist o => some (a.mergeDist o)
  | AggregationValue.nilDist => none
  | AggregationValue.count _ => some a

/-- Write the elements of `src` into the front of `dst`
(Go `for i, c := range a.countPerBucket { ret.countPerBucket[i] = c }`,
lines 234-236).  The second equation is unreachable when
`src.length ≤ dst.length` (in Go it would be an index panic). -/
def copyInto : List ℤ → List ℤ → List ℤ
  | dst, [] => dst
  | [], _ :: _ => []
  | _ :: ds, s :: ss => s :: copyInto ds ss

/-- `AggregationDistributionValue.multiplyByFraction` (lines 232-245): builds a
fresh value over the same bounds and copies every field; the fraction is
ignored. -/
def AggregationDistributionValue.multiplyByFraction
    (a : AggregationDistributionValue) (_fraction : ℚ) : AggregationDistributionValue :=
  let ret := newAggregationDistributionValue a.bounds
  { ret with
    countPerBucket := copyInto ret.countPerBucket a.countPerBucket
    count := a.count
    min := a.min
    max := a.max
    mean := a.mean
    sumOfSquaredDev := a.sumOfSquaredDev }

/-- `AggregationDistributionValue.clear` (lines 274-283). -/
def AggregationDistributionValue.clear
    (a : AggregationDistributionValue) : AggregationDistributionValue :=
  { a with
    count := 0
    min := maxFloat64
    max := smallestNonzeroFloat64
    mean := 0
    sumOfSquaredDev := 0
    countPerBucket := a.countPerBucket.map fun _ => 0 }

/-- `AggregationDistributionValue.variance` (lines 150-155). -/
def AggregationDistributionValue.variance (a : AggregationDistributionValue) : ℚ :=
  if a.count ≤ 1 then 0 else a.sumOfSquaredDev / ((a.count - 1 : ℤ) : ℚ)

/-- The `math.Pow10(-9)` tolerance used by `equal` (line 305). -/
def equalEpsilon : ℚ := 1 / 10 ^ 9

/-- The bucket-comparison loop of `equal` (lines 299-303), ranging over the
first list's indices; lengths are already known equal when it runs. -/
def bucketsEqual : List ℤ → List ℤ → Bool
  | [], _ => true
  | _ :: _, [] => false
  | x :: xs, y :: ys => x == y && bucketsEqual xs ys

/-- Body of `AggregationDistributionValue.equal` after the type assertion and
nil check succeed (lines 295-306). -/
def AggregationDistributionValue.equalDist
    (a b : AggregationDistributionValue) : Bool :=
  decide (a.countPerBucket.length = b.countPerBucket.length) &&
  bucketsEqual a.countPerBucket b.countPerBucket &&
  decide (a.count = b.count) && decide (a.min = b.min) && decide (a.max = b.max) &&
  decide ((a.mean - b.mean) ^ 2 < equalEpsilon) &&
  decide ((a.variance - b.variance) ^ 2 < equalEpsilon)

/-- `AggregationDistributionValue.equal` (lines 285-307): a non-distribution
argument fails the type assertion, a nil distribution fails the nil check;
both return false. -/
def AggregationDistributionValue.equal
    (a : AggregationDistributionValue) (av : AggregationValue) : Bool :=
  match av with
  | AggregationValue.dist b => a.equalDist b
  | _ => false

/-- `AggregationCountValue.addSample` (lines 50-52): the sample is ignored. -/
def countAddSample (a : ℤ) (_v : Sample) : ℤ := a + 1

/-- Go's `int64(x)` conversion on a float: truncation toward zero. -/
def goTrunc (q : ℚ) : ℤ := if 0 ≤ q then ⌊q⌋ else ⌈q⌉

/-- `AggregationCountValue.multiplyByFraction` (lines 54-57):
`int64(float64(int64(*a))*fraction + 0.5)`. -/
def countMultiplyByFraction (a : ℤ) (fraction : ℚ) : ℤ :=
  goTrunc ((a : ℚ) * fraction + 1 / 2)

/-- `AggregationCountValue.addToIt` (lines 59-65): a non-count argument fails
the type assertion and the receiver is unchanged. -/
def countAddToIt (a : ℤ) (av : AggregationValue) : ℤ :=
  match av with
  | AggregationValue.count o => a + o
  | _ => a

/-- `AggregationCountValue.clear` (lines 67-69). -/
def countClear (_a : ℤ) : ℤ := 0

/-- `AggregationCountValue.equal` (lines 71-78). -/
def countEqual (a : ℤ) (av : AggregationValue) : Bool :=
  match av with
  | AggregationValue.count o => decide (a = o)
  | _ => false

/-- States of a distribution aggregator over fixed bounds reachable from the
zeroed state by numeric samples and merges with other reachable states. -/
inductive DistReachable (bounds : List ℚ) : AggregationDistributionValue → Prop where
  | init : DistReachable bounds (newAggregationDistributionValue bounds)
  | step (a : AggregationDistributionValue) (v : Sample) :
      DistReachable bounds a → DistReachable bounds (a.addSample v)
  | merge (a b : AggregationDistributionValue) :
      DistReachable bounds a → DistReachable bounds b →
      DistReachable bounds (a.mergeDist b)

/-- The inductive invariant carried by every reachable distribution state:
well-formed bounds and bucket vector, a non-negative count equal to the bucket
sum, and (once a sample is in) min ≤ mean ≤ max. -/
def DistInv (bounds : List ℚ) (a : AggregationDistributionValue) : Prop :=
  a.bounds = bounds ∧
  a.countPerBucket.length = bounds.length + 1 ∧
  0 ≤ a.count ∧
  a.count = a.countPerBucket.sum ∧
  (1 ≤ a.count → a.min ≤ a.mean ∧ a.mean ≤ a.max)

/-! Helper lemmas about the list operations used by the aggregators. -/

lemma bucketIndex_le (bounds : List ℚ) (f : ℚ) : bucketIndex bounds f ≤ bounds.length := by
  induction bounds with
  | nil => simp [bucketIndex]
  | cons b bs ih =>
    by_cases h : f < b
    · simp [bucketIndex, h]
    · simp only [bucketIndex, h, if_false, List.length_cons]
      exact Nat.succ_le_succ ih

lemma length_incAt (l : List ℤ) : ∀ i, (incAt l i).length = l.length := by
  induction l with
  | nil => intro i; simp [incAt]
  | cons c cs ih =>
    intro i
    cases i with
    | zero => simp [incAt]
    | succ n => simp [incAt, ih n]

lemma sum_incAt (l : List ℤ) : ∀ i, i < l.length → (incAt l i).sum = l.sum + 1 := by
  induction l with
  | nil => intro i h; simp at h
  | cons c cs ih =>
    intro i h
    cases i with
    | zero => simp [incAt]; ring
    | succ n =>
      simp only [incAt, List.sum_cons]
      rw [ih n (by simpa using h)]
      ring

lemma getD_incAt (l : List ℤ) :
    ∀ i, i < l.length →
      ∀ j, (incAt l i).getD j 0 = l.getD j 0 + (if j = i then 1 else 0) := by
  induction l with
  | nil => intro i h; simp at h
  | cons c cs ih =>
    intro i h j
    cases i with
    | zero =>
      cases j with
      | zero => simp [incAt]
      | succ n => simp [incAt]
    | succ m =>
      cases j with
      | zero => simp [incAt]
      | succ n =>
        simp only [incAt, List.getD_cons_succ]
        rw [ih m (by simpa using h) n]
        simp [Nat.succ_inj]

lemma length_addBuckets : ∀ (xs ys : List ℤ), ys.length ≤ xs.length →
    (addBuckets xs ys).length = xs.length := by
  intro xs
  induction xs with
  | nil =>
    intro ys h
    cases ys with
    | nil => simp [addBuckets]
    | cons y ys => simp at h
  | cons x xs ih =>
    intro ys h
    cases ys with
    | nil => simp [addBuckets]
    | cons y ys =>
      simp only [addBuckets, List.length_cons]
      rw [ih ys (by simpa using h)]

lemma sum_addBuckets : ∀ (xs ys : List ℤ), ys.length ≤ xs.length →
    (addBuckets xs ys).sum = xs.sum + ys.sum := by
  intro xs
  induction xs with
  | nil =>
    intro ys h
    cases ys with
    | nil => simp [addBuckets]
    | cons y ys => simp at h
  | cons x xs ih =>
    intro ys h
    cases ys with
    | nil => simp [addBuckets]
    | cons y ys =>
      simp only [addBuckets, List.sum_cons]
      rw [ih ys (by simpa using h)]
      ring

lemma getD_addBuckets : ∀ (xs ys : List ℤ), ys.length = xs.length →
    ∀ j, (addBuckets xs ys).getD j 0 = xs.getD j 0 + ys.getD j 0 := by
  intro xs
  induction xs with
  | nil =>
    intro ys h j
    cases ys with
    | nil => simp [addBuckets]
    | cons y ys => simp at h
  | cons x xs ih =>
    intro ys h j
    cases ys with
    | nil => simp at h
    | cons y ys =>
      cases j with
      | zero => simp [addBuckets]
      | succ n =>
        simp only [addBuckets, List.getD_cons_succ]
        exact ih ys (by simpa using h) n

lemma copyInto_eq : ∀ (dst src : List ℤ), dst.length = src.length → copyInto dst src = src := by
  intro dst src
  induction src generalizing dst with
  | nil =>
    intro h
    cases dst with
    | nil => rfl
    | cons d ds => simp at h
  | cons s ss ih =>
    intro h
    cases dst with
    | nil => simp at h
    | cons d ds =>
      simp only [copyInto, List.cons.injEq, true_and]
      exact ih ds (by simpa using h)

lemma bucketsEqual_self : ∀ xs : List ℤ, bucketsEqual xs xs = true := by
  intro xs
  induction xs with
  | nil => rfl
  | cons x xs ih => simp [bucketsEqual, ih]

lemma bucketsEqual_eq : ∀ xs ys : List ℤ, xs.length = ys.length →
    bucketsEqual xs ys = true → xs = ys := by
  intro xs
  induction xs with
  | nil =>
    intro ys h _
    cases ys with
    | nil => rfl
    | cons y ys => simp at h
  | cons x xs ih =>
    intro ys h hb
    cases ys with
    | nil => simp at h
    | cons y ys =>
      simp only [bucketsEqual, Bool.and_eq_true, beq_iff_eq] at hb
      rw [hb.1, ih ys (by simpa using h) hb.2]

lemma getD_replicate_zero : ∀ n i : ℕ, (List.replicate n (0 : ℤ)).getD i 0 = 0 := by
  intro n
  induction n with
  | zero => intro i; simp
  | succ n ih =>
    intro i
    cases i with
    | zero => simp [List.replicate]
    | succ m => simp [List.replicate, ih m]

lemma getD_map_zero (l : List ℤ) : ∀ i, (l.map fun _ => (0 : ℤ)).getD i 0 = 0 := by
  induction l with
  | nil => intro i; simp
  | cons x xs ih =>
    intro i
    cases i with
    | zero => simp
    | succ m => simp [ih m]

lemma ite_lt_min (u v : ℚ) : (if v < u then v else u) = min u v := by
  rcases lt_or_ge v u with h | h
  · simp [h, min_eq_right h.le]
  · simp [not_lt.mpr h, min_eq_left h]

lemma ite_gt_max (u v : ℚ) : (if v > u then v else u) = max u v := by
  rcases lt_or_ge u v with h | h
  · simp [h, max_eq_right h.le]
  · simp [not_lt.mpr h, max_eq_left h]

lemma convex_lower (m x y p q : ℚ) (hp : 0 < p) (hq : 0 < q)
    (hx : m ≤ x) (hy : m ≤ y) : m ≤ (x * p + y * q) / (p + q) := by
  rw [le_div_iff₀ (by linarith)]
  nlinarith [mul_le_mul_of_nonneg_right hx hp.le, mul_le_mul_of_nonneg_right hy hq.le]

lemma convex_upper (m x y p q : ℚ) (hp : 0 < p) (hq : 0 < q)
    (hx : x ≤ m) (hy : y ≤ m) : (x * p + y * q) / (p + q) ≤ m := by
  rw [div_le_iff₀ (by linarith)]
  nlinarith [mul_le_mul_of_nonneg_right hx hp.le, mul_le_mul_of_nonneg_right hy hq.le]

/-- C1 counterexample: the claim says a fresh distribution aggregator has
min = +∞ and max = −∞, but `newAggregationDistributionValue` sets
min = `math.MaxFloat64` (a finite value) and max = `math.SmallestNonzeroFloat64`,
which is POSITIVE — so after recording the single sample 0 the stored max is
still `2^(-1074)`, not 0 as a −∞ sentinel would give. -/
theorem claim1_counterexample :
    (newAggregationDistributionValue []).max = smallestNonzeroFloat64 ∧
    0 < (newAggregationDistributionValue []).max ∧
    ((newAggregationDistributionValue []).addSample (Sample.f64 0)).max ≠ 0 ∧
    (newAggregationDistributionValue []).min = maxFloat64 := by
  have hlt : ¬ ((0 : ℚ) > smallestNonzeroFloat64) := by
    rw [smallestNonzeroFloat64]; norm_num
  have hpos : (0 : ℚ) < smallestNonzeroFloat64 := by
    rw [smallestNonzeroFloat64]; norm_num
  have h : ((newAggregationDistributionValue []).addSample (Sample.f64 0)).max =
      smallestNonzeroFloat64 := by
    simp [AggregationDistributionValue.addSample, Sample.toFloat,
      AggregationDistributionValue.incrementBucketCount,
      newAggregationDistributionValue, hlt]
  refine ⟨rfl, hpos, ?_, rfl⟩
  rw [h]
  exact ne_of_gt hpos

/-- C1 (amended): a newly created distribution aggregator, and one after
clear(), has count = 0, mean = 0, sumOfSquaredDev = 0, every element of
countPerBucket equal to 0, min = math.MaxFloat64 (the largest finite float64)
and max = math.SmallestNonzeroFloat64 (the smallest positive float64), the
code's stand-ins for +∞ and −∞. -/
theorem distribution_initial_and_clear_state (bounds : List ℚ)
    (a : AggregationDistributionValue) :
    (newAggregationDistributionValue bounds).count = 0 ∧
    (newAggregationDistributionValue bounds).mean = 0 ∧
    (newAggregationDistributionValue bounds).sumOfSquaredDev = 0 ∧
    (∀ i, (newAggregationDistributionValue bounds).countPerBucket.getD i 0 = 0) ∧
    (newAggregationDistributionValue bounds).min = maxFloat64 ∧
    (newAggregationDistributionValue bounds).max = smallestNonzeroFloat64 ∧
    a.clear.count = 0 ∧ a.clear.mean = 0 ∧ a.clear.sumOfSquaredDev = 0 ∧
    (∀ i, a.clear.countPerBucket.getD i 0 = 0) ∧
    a.clear.min = maxFloat64 ∧ a.clear.max = smallestNonzeroFloat64 := by
  refine ⟨rfl, rfl, rfl, ?_, rfl, rfl, rfl, rfl, rfl, ?_, rfl, rfl⟩
  · intro i
    exact getD_replicate_zero (bounds.length + 1) i
  · intro i
    exact getD_map_zero a.countPerBucket i

/-- C2: addSample on a numeric sample x increments count, lowers min to x iff
x < min, raises max to x iff x > max, and applies the Welford update: when the
new count is 1 the mean becomes x and sumOfSquaredDev is unchanged, otherwise
mean becomes mean + (x − mean)/(count+1) and sumOfSquaredDev gains
(x − oldMean)(x − newMean); an int64 sample behaves like its float64 value, and
a non-numeric sample leaves the state unchanged. -/
theorem distribution_addSample_spec (a : AggregationDistributionValue) (x : ℚ) :
    (a.addSample (Sample.f64 x)).count = a.count + 1 ∧
    (a.addSample (Sample.f64 x)).min = min a.min x ∧
    (a.addSample (Sample.f64 x)).max = max a.max x ∧
    (a.addSample (Sample.f64 x)).mean =
      (if a.count + 1 = 1 then x
       else a.mean + (x - a.mean) / ((a.count + 1 : ℤ) : ℚ)) ∧
    (a.addSample (Sample.f64 x)).sumOfSquaredDev =
      (if a.count + 1 = 1 then a.sumOfSquaredDev
       else a.sumOfSquaredDev + (x - a.mean) * (x - (a.addSample (Sample.f64 x)).mean)) ∧
    (∀ v : ℤ, a.addSample (Sample.i64 v) = a.addSample (Sample.f64 (v : ℚ))) ∧
    a.addSample Sample.other = a := by
  by_cases h : a.count + 1 = 1 <;>
    simp [AggregationDistributionValue.addSample, Sample.toFloat,
      AggregationDistributionValue.incrementBucketCount, h, ite_lt_min, ite_gt_max]

/-- C6: multiplyByFraction on a distribution aggregator returns a value all of
whose fields (count, min, max, mean, sumOfSquaredDev, bucket counts, bounds)
equal the receiver's, independently of the fraction; the model is pure, so the
receiver itself is untouched. -/
theorem distribution_multiplyByFraction_id (a : AggregationDistributionValue) (f : ℚ)
    (hwf : a.countPerBucket.length = a.bounds.length + 1) :
    a.multiplyByFraction f = a := by
  cases a with
  | mk count mn mx mean ssd cpb bounds =>
    have h : copyInto (List.replicate (bounds.length + 1) (0 : ℤ)) cpb = cpb :=
      copyInto_eq _ _ (by simp_all)
    simp [AggregationDistributionValue.multiplyByFraction,
      newAggregationDistributionValue, h]

/-- C6 witness: multiplyByFraction is the identity on a concrete well-formed
aggregator. -/
theorem distribution_multiplyByFraction_id_witness :
    (newAggregationDistributionValue [5]).countPerBucket.length =
      (newAggregationDistributionValue [5]).bounds.length + 1 ∧
    (newAggregationDistributionValue [5]).multiplyByFraction (1 / 2) =
      newAggregationDistributionValue [5] :=
  ⟨by decide, distribution_multiplyByFraction_id _ (1 / 2) (by decide)⟩

/-- C7: for a non-negative counter a and a non-negative fraction f,
multiplyByFraction returns round-half-up of a·f: the truncation toward zero the
code performs coincides with ⌊a·f + 1/2⌋, the integer n with
n ≤ a·f + 1/2 < n + 1. -/
theorem count_multiplyByFraction_spec (a : ℤ) (f : ℚ) (ha : 0 ≤ a) (hf : 0 ≤ f) :
    countMultiplyByFraction a f = ⌊(a : ℚ) * f + 1 / 2⌋ ∧
    ((countMultiplyByFraction a f : ℚ) ≤ (a : ℚ) * f + 1 / 2) ∧
    (a : ℚ) * f + 1 / 2 < (countMultiplyByFraction a f : ℚ) + 1 := by
  have ha' : (0 : ℚ) ≤ (a : ℚ) := by exact_mod_cast ha
  have h0 : (0 : ℚ) ≤ (a : ℚ) * f + 1 / 2 := by nlinarith [mul_nonneg ha' hf]
  have he : countMultiplyByFraction a f = ⌊(a : ℚ) * f + 1 / 2⌋ := by
    unfold countMultiplyByFraction goTrunc
    rw [if_pos h0]
  refine ⟨he, ?_, ?_⟩
  · rw [he]; exact Int.floor_le _
  · rw [he]; exact Int.lt_floor_add_one _

/-- C7 witness: 3 · (1/2) rounds half-up to 2. -/
theorem count_multiplyByFraction_spec_witness :
    (0 : ℤ) ≤ 3 ∧ (0 : ℚ) ≤ 1 / 2 ∧
    countMultiplyByFraction 3 (1 / 2) = ⌊(3 : ℚ) * (1 / 2) + 1 / 2⌋ ∧
    countMultiplyByFraction 3 (1 / 2) = 2 :=
  ⟨by norm_num, by norm_num,
    (count_multiplyByFraction_spec 3 (1 / 2) (by norm_num) (by norm_num)).1,
    by norm_num [countMultiplyByFraction, goTrunc]⟩

/-- C8: equal on two distribution states is true iff the countPerBucket
vectors are equal (same length, element-wise equal), count, min and max agree
exactly, and the squared differences of the means and of the variances are
below 1e−9, where variance is sumOfSquaredDev/(count−1) for count > 1 and 0
otherwise. -/
theorem distribution_equal_spec (a b : AggregationDistributionValue) :
    a.equal (AggregationValue.dist b) = true ↔
      (a.countPerBucket = b.countPerBucket ∧ a.count = b.count ∧
       a.min = b.min ∧ a.max = b.max ∧
       (a.mean - b.mean) ^ 2 < 1 / 10 ^ 9 ∧
       (a.variance - b.variance) ^ 2 < 1 / 10 ^ 9) := by
  simp only [AggregationDistributionValue.equal, AggregationDistributionValue.equalDist,
    equalEpsilon, Bool.and_eq_true, decide_eq_true_eq]
  constructor
  · rintro ⟨⟨⟨⟨⟨⟨hlen, hbe⟩, hc⟩, hmn⟩, hmx⟩, hmean⟩, hvar⟩
    exact ⟨bucketsEqual_eq _ _ hlen hbe, hc, hmn, hmx, hmean, hvar⟩
  · rintro ⟨hbeq, hc, hmn, hmx, hmean, hvar⟩
    rw [hbeq]
    exact ⟨⟨⟨⟨⟨⟨rfl, bucketsEqual_self _⟩, hc⟩, hmn⟩, hmx⟩, hmean⟩, hvar⟩

/-- C9: addSample on a count aggregator adds exactly 1 whatever the sample
value or type is. -/
theorem count_addSample_spec (a : ℤ) :
    (∀ v : Sample, countAddSample a v = a + 1) ∧
    (∀ v w : Sample, countAddSample a v = countAddSample a w) :=
  ⟨fun _ => rfl, fun _ _ => rfl⟩

/-- C10: merging across aggregator variants is a silent no-op and comparing
across variants is false: addToIt on a count aggregator with a distribution
(or nil-distribution) argument, and addToIt on a distribution aggregator with
a count argument, leave the receiver unchanged; equal across the two variants,
or against a nil distribution, returns false. -/
theorem cross_variant_spec :
    (∀ (a : ℤ) (d : AggregationDistributionValue),
      countAddToIt a (AggregationValue.dist d) = a) ∧
    (∀ a : ℤ, countAddToIt a AggregationValue.nilDist = a) ∧
    (∀ (d : AggregationDistributionValue) (c : ℤ),
      d.addToIt (AggregationValue.count c) = some d) ∧
    (∀ (a : ℤ) (d : AggregationDistributionValue),
      countEqual a (AggregationValue.dist d) = false) ∧
    (∀ a : ℤ, countEqual a AggregationValue.nilDist = false) ∧
    (∀ (d : AggregationDistributionValue) (c : ℤ),
      d.equal (AggregationValue.count c) = false) ∧
    (∀ d : AggregationDistributionValue, d.equal AggregationValue.nilDist = false) :=
  ⟨fun _ _ => rfl, fun _ => rfl, fun _ _ => rfl, fun _ _ => rfl,
    fun _ => rfl, fun _ _ => rfl, fun _ => rfl⟩

lemma bucketIndex_spec (x : ℚ) : ∀ bounds : List ℚ,
    (bucketIndex bounds x < bounds.length ∧ x < bounds.getD (bucketIndex bounds x) 0 ∧
      ∀ k, k < bucketIndex bounds x → bounds.getD k 0 ≤ x) ∨
    (bucketIndex bounds x = bounds.length ∧ ∀ k, k < bounds.length → bounds.getD k 0 ≤ x) := by
  intro bounds
  induction bounds with
  | nil => right; exact ⟨rfl, fun k hk => absurd hk (by simp)⟩
  | cons b bs ih =>
    by_cases hxb : x < b
    · left
      refine ⟨by simp [bucketIndex, hxb], by simp [bucketIndex, hxb], ?_⟩
      intro k hk
      simp [bucketIndex, hxb] at hk
    · rcases ih with ⟨h1, h2, h3⟩ | ⟨h1, h2⟩
      · left
        refine ⟨?_, ?_, ?_⟩
        · simp only [bucketIndex, hxb, if_false, List.length_cons]
          exact Nat.succ_lt_succ h1
        · simpa [bucketIndex, hxb] using h2
        · intro k hk
          simp only [bucketIndex, hxb, if_false] at hk
          cases k with
          | zero => simpa using not_lt.mp hxb
          | succ m => simpa using h3 m (by omega)
      · right
        constructor
        · simp [bucketIndex, hxb, h1]
        · intro k hk
          cases k with
          | zero => simpa using not_lt.mp hxb
          | succ m => simpa using h2 m (by simpa using hk)

lemma bucketIndex_eq_length (x : ℚ) : ∀ bounds : List ℚ,
    (∀ k, k < bounds.length → bounds.getD k 0 ≤ x) → bucketIndex bounds x = bounds.length := by
  intro bounds
  induction bounds with
  | nil => intro _; rfl
  | cons b bs ih =>
    intro h
    have hb : b ≤ x := by simpa using h 0 (by simp)
    simp only [bucketIndex, not_lt.mpr hb, if_false, List.length_cons]
    rw [ih fun k hk => by simpa using h (k + 1) (by simpa using hk)]

/-- C3: merging distribution state b into a (the body of addToIt after the
type assertion) is a no-op when b.count = 0; otherwise it takes the pointwise
min of the mins and max of the maxes, combines the Welford state by the
parallel formulas, sums the counts, and adds b's bucket counts element-wise
into a's.  The first conjunct records that addToIt with a distribution
argument is exactly this merge. -/
theorem distribution_addToIt_spec (a b : AggregationDistributionValue)
    (hbounds : a.bounds = b.bounds)
    (hwa : a.countPerBucket.length = a.bounds.length + 1)
    (hwb : b.countPerBucket.length = b.bounds.length + 1) :
    a.addToIt (AggregationValue.dist b) = some (a.mergeDist b) ∧
    (b.count = 0 → a.mergeDist b = a) ∧
    (b.count ≠ 0 →
      (a.mergeDist b).min = min a.min b.min ∧
      (a.mergeDist b).max = max a.max b.max ∧
      (a.mergeDist b).sumOfSquaredDev = a.sumOfSquaredDev + b.sumOfSquaredDev +
        (b.mean - a.mean) ^ 2 * ((a.count : ℚ) * (b.count : ℚ)) /
          ((a.count : ℚ) + (b.count : ℚ)) ∧
      (a.mergeDist b).mean =
        (a.mean * (a.count : ℚ) + b.mean * (b.count : ℚ)) /
          ((a.count : ℚ) + (b.count : ℚ)) ∧
      (a.mergeDist b).count = a.count + b.count ∧
      (∀ j, (a.mergeDist b).countPerBucket.getD j 0 =
        a.countPerBucket.getD j 0 + b.countPerBucket.getD j 0)) := by
  have hlen : b.countPerBucket.length = a.countPerBucket.length := by
    rw [hwa, hwb, hbounds]
  refine ⟨rfl, ?_, ?_⟩
  · intro h
    simp [AggregationDistributionValue.mergeDist, h]
  · intro h
    refine ⟨?_, ?_, ?_, ?_, ?_, ?_⟩
    · simp [AggregationDistributionValue.mergeDist, h, ite_lt_min]
    · simp [AggregationDistributionValue.mergeDist, h, ite_gt_max]
    · simp only [AggregationDistributionValue.mergeDist, h, if_false, if_neg h]
      push_cast
      ring
    · simp only [AggregationDistributionValue.mergeDist, AggregationDistributionValue.Sum,
        h, if_false, if_neg h]
      push_cast
      ring
    · simp [AggregationDistributionValue.mergeDist, h]
    · intro j
      simp only [AggregationDistributionValue.mergeDist, h, if_false, if_neg h]
      exact getD_addBuckets _ _ hlen j

/-- C3 witness: merging two concrete one-sample aggregators over bounds [10]
sums the counts and averages the means. -/
theorem distribution_addToIt_spec_witness :
    ((⟨1, 1, 1, 1, 0, [1, 0], [10]⟩ : AggregationDistributionValue).mergeDist
        ⟨1, 2, 2, 2, 0, [0, 1], [10]⟩).count = 1 + 1 ∧
    ((⟨1, 1, 1, 1, 0, [1, 0], [10]⟩ : AggregationDistributionValue).mergeDist
        ⟨1, 2, 2, 2, 0, [0, 1], [10]⟩).mean = (1 * (1 : ℚ) + 2 * (1 : ℚ)) / ((1 : ℚ) + (1 : ℚ)) := by
  have h := distribution_addToIt_spec ⟨1, 1, 1, 1, 0, [1, 0], [10]⟩
    ⟨1, 2, 2, 2, 0, [0, 1], [10]⟩ rfl rfl rfl
  have h2 := h.2.2 (by norm_num)
  exact ⟨h2.2.2.2.2.1, h2.2.2.2.1⟩

lemma getD_le_of_sorted_last (bounds : List ℚ) (hsorted : bounds.Chain' (· < ·))
    (blast : ℚ) (hlast : bounds.getLast? = some blast) :
    ∀ k, k < bounds.length → bounds.getD k 0 ≤ blast := by
  intro k hk
  have hne : bounds ≠ [] := by
    intro hnil
    rw [hnil] at hlast
    simp at hlast
  have hp : bounds.Pairwise (· < ·) := List.chain'_iff_pairwise.mp hsorted
  have hget := List.pairwise_iff_get.mp hp
  have hkl : bounds.getLast hne = blast := by
    rw [List.getLast?_eq_getLast bounds hne] at hlast
    exact Option.some_injective _ hlast
  have hlen0 : 0 < bounds.length := List.length_pos.mpr hne
  rw [List.getD_eq_get _ _ hk]
  rcases Nat.lt_or_ge k (bounds.length - 1) with hklt | hkge
  · have := hget ⟨k, hk⟩ ⟨bounds.length - 1, by omega⟩ (by simpa using hklt)
    rw [List.getLast_eq_get bounds hne] at hkl
    rw [← hkl]
    exact this.le
  · have hkeq : k = bounds.length - 1 := by omega
    rw [List.getLast_eq_get bounds hne] at hkl
    rw [← hkl]
    subst hkeq
    rfl

/-- C4: for strictly increasing bounds, addSample on a numeric sample x
increments exactly one bucket count: the one at the first index i with
x < bounds[i]; when no bound exceeds x (in particular when x is at least the
last bound) the last bucket, at index n = |bounds|, is incremented — and
conversely, whenever x is at least the last bound the chosen index is n.
When bounds is empty the single bucket at index 0 is incremented. -/
theorem distribution_bucket_placement (a : AggregationDistributionValue) (x : ℚ)
    (hsorted : a.bounds.Chain' (· < ·))
    (hwf : a.countPerBucket.length = a.bounds.length + 1) :
    ∃ i, i < a.countPerBucket.length ∧
      (∀ j, (a.addSample (Sample.f64 x)).countPerBucket.getD j 0 =
        a.countPerBucket.getD j 0 + (if j = i then 1 else 0)) ∧
      ((i < a.bounds.length ∧ x < a.bounds.getD i 0 ∧
          ∀ k, k < i → a.bounds.getD k 0 ≤ x) ∨
        (i = a.bounds.length ∧
          (a.bounds = [] ∨ ∃ blast, a.bounds.getLast? = some blast ∧ blast ≤ x))) ∧
      (∀ blast, a.bounds.getLast? = some blast → blast ≤ x → i = a.bounds.length) := by
  have hile : bucketIndex a.bounds x ≤ a.bounds.length := bucketIndex_le _ _
  have hlt : bucketIndex a.bounds x < a.countPerBucket.length := by omega
  have hcpb : (a.addSample (Sample.f64 x)).countPerBucket =
      incAt a.countPerBucket (bucketIndex a.bounds x) := by
    simp [AggregationDistributionValue.addSample, Sample.toFloat,
      AggregationDistributionValue.incrementBucketCount, apply_ite
      AggregationDistributionValue.countPerBucket]
  refine ⟨bucketIndex a.bounds x, hlt, ?_, ?_, ?_⟩
  · intro j
    rw [hcpb]
    exact getD_incAt _ _ hlt j
  · rcases bucketIndex_spec x a.bounds with ⟨h1, h2, h3⟩ | ⟨h1, h2⟩
    · exact Or.inl ⟨h1, h2, h3⟩
    · refine Or.inr ⟨h1, ?_⟩
      rcases eq_or_ne a.bounds [] with hnil | hne
      · exact Or.inl hnil
      · right
        refine ⟨a.bounds.getLast hne, List.getLast?_eq_getLast _ hne, ?_⟩
        have hlen1 : a.bounds.length - 1 < a.bounds.length := by
          have : 0 < a.bounds.length := List.length_pos.mpr hne
          omega
        have := h2 (a.bounds.length - 1) hlen1
        rw [List.getD_eq_get _ _ hlen1, ← List.getLast_eq_get a.bounds hne] at this
        exact this
  · intro blast hlast hble
    have hall : ∀ k, k < a.bounds.length → a.bounds.getD k 0 ≤ x := fun k hk =>
      le_trans (getD_le_of_sorted_last a.bounds hsorted blast hlast k hk) hble
    exact bucketIndex_eq_length x a.bounds hall

/-- C4 witness: over bounds [1, 2] the sample 3 exceeds the last bound, so
the last bucket (index 2) is the one incremented. -/
theorem distribution_bucket_placement_witness :
    (newAggregationDistributionValue [1, 2]).bounds.Chain' (· < ·) ∧
    (newAggregationDistributionValue [1, 2]).countPerBucket.length =
      (newAggregationDistributionValue [1, 2]).bounds.length + 1 ∧
    (∃ i, i < (newAggregationDistributionValue [1, 2]).countPerBucket.length ∧
      (∀ j, ((newAggregationDistributionValue [1, 2]).addSample
          (Sample.f64 3)).countPerBucket.getD j 0 =
        (newAggregationDistributionValue [1, 2]).countPerBucket.getD j 0 +
          (if j = i then 1 else 0)) ∧
      ((i < (newAggregationDistributionValue [1, 2]).bounds.length ∧
          (3 : ℚ) < (newAggregationDistributionValue [1, 2]).bounds.getD i 0 ∧
          ∀ k, k < i → (newAggregationDistributionValue [1, 2]).bounds.getD k 0 ≤ (3 : ℚ)) ∨
        (i = (newAggregationDistributionValue [1, 2]).bounds.length ∧
          ((newAggregationDistributionValue [1, 2]).bounds = [] ∨
            ∃ blast, (newAggregationDistributionValue [1, 2]).bounds.getLast? = some blast ∧
              blast ≤ (3 : ℚ)))) ∧
      (∀ blast, (newAggregationDistributionValue [1, 2]).bounds.getLast? = some blast →
        blast ≤ (3 : ℚ) → i = (newAggregationDistributionValue [1, 2]).bounds.length)) := by
  have hch : (newAggregationDistributionValue [1, 2]).bounds.Chain' (· < ·) := by
    rw [show (newAggregationDistributionValue [1, 2]).bounds = [1, 2] from rfl]
    exact List.chain'_pair.mpr (by norm_num)
  refine ⟨hch, rfl, ?_⟩
  exact distribution_bucket_placement (newAggregationDistributionValue [1, 2]) 3 hch rfl

lemma addSample_none (a : AggregationDistributionValue) (v : Sample)
    (hv : v.toFloat = none) : a.addSample v = a := by
  simp [AggregationDistributionValue.addSample, hv]

lemma addSample_some (a : AggregationDistributionValue) (v : Sample) (f : ℚ)
    (hv : v.toFloat = some f) :
    a.addSample v = { a with
      count := a.count + 1
      min := if f < a.min then f else a.min
      max := if f > a.max then f else a.max
      countPerBucket := incAt a.countPerBucket (bucketIndex a.bounds f)
      mean := if a.count + 1 = 1 then f
        else a.mean + (f - a.mean) / ((a.count + 1 : ℤ) : ℚ)
      sumOfSquaredDev := if a.count + 1 = 1 then a.sumOfSquaredDev
        else a.sumOfSquaredDev +
          (f - a.mean) * (f - (a.mean + (f - a.mean) / ((a.count + 1 : ℤ) : ℚ))) } := by
  by_cases h : a.count + 1 = 1 <;>
    simp [AggregationDistributionValue.addSample, hv,
      AggregationDistributionValue.incrementBucketCount, h]

lemma mergeDist_pos (a b : AggregationDistributionValue) (h : b.count ≠ 0) :
    a.mergeDist b = { a with
      min := if b.min < a.min then b.min else a.min
      max := if b.max > a.max then b.max else a.max
      sumOfSquaredDev := a.sumOfSquaredDev + b.sumOfSquaredDev +
        (b.mean - a.mean) ^ 2 * ((a.count * b.count : ℤ) : ℚ) /
          ((a.count + b.count : ℤ) : ℚ)
      mean := (a.mean * (a.count : ℚ) + b.mean * (b.count : ℚ)) /
        ((a.count + b.count : ℤ) : ℚ)
      count := a.count + b.count
      countPerBucket := addBuckets a.countPerBucket b.countPerBucket } := by
  simp [AggregationDistributionValue.mergeDist, AggregationDistributionValue.Sum, h]

lemma distInv_init (bounds : List ℚ) :
    DistInv bounds (newAggregationDistributionValue bounds) := by
  refine ⟨rfl, by simp [newAggregationDistributionValue], le_refl 0, ?_, ?_⟩
  · show (0 : ℤ) = (List.replicate (bounds.length + 1) (0 : ℤ)).sum
    simp
  · intro h
    exact absurd h (by norm_num [newAggregationDistributionValue])

lemma distInv_addSample (bounds : List ℚ) (a : AggregationDistributionValue)
    (v : Sample) (h : DistInv bounds a) : DistInv bounds (a.addSample v) := by
  obtain ⟨hbd, hlen, hcnt, hsum, hmm⟩ := h
  cases hv : v.toFloat with
  | none => rw [addSample_none a v hv]; exact ⟨hbd, hlen, hcnt, hsum, hmm⟩
  | some f =>
    rw [addSample_some a v f hv]
    have hidx : bucketIndex a.bounds f < a.countPerBucket.length := by
      have h1 := bucketIndex_le a.bounds f
      have h2 : a.bounds.length = bounds.length := by rw [hbd]
      omega
    refine ⟨hbd, ?_, show (0 : ℤ) ≤ a.count + 1 by omega, ?_, ?_⟩
    · show (incAt a.countPerBucket (bucketIndex a.bounds f)).length = bounds.length + 1
      rw [length_incAt, hlen]
    · show a.count + 1 = (incAt a.countPerBucket (bucketIndex a.bounds f)).sum
      rw [sum_incAt _ _ hidx, ← hsum]
    · intro _
      by_cases hc : a.count + 1 = 1
      · constructor
        · show (if f < a.min then f else a.min) ≤ (if a.count + 1 = 1 then f else _)
          rw [if_pos hc]
          by_cases hf : f < a.min
          · rw [if_pos hf]
          · rw [if_neg hf]
            exact not_lt.mp hf
        · show (if a.count + 1 = 1 then f else _) ≤ (if f > a.max then f else a.max)
          rw [if_pos hc]
          by_cases hf : f > a.max
          · rw [if_pos hf]
          · rw [if_neg hf]
            exact not_lt.mp hf
      · have hc1 : 1 ≤ a.count := by omega
        obtain ⟨hlm, hum⟩ := hmm hc1
        have hn2 : (2 : ℚ) ≤ ((a.count + 1 : ℤ) : ℚ) := by
          have : (2 : ℤ) ≤ a.count + 1 := by omega
          exact_mod_cast this
        have hn0 : ((a.count + 1 : ℤ) : ℚ) ≠ 0 := by linarith
        have heq : a.mean + (f - a.mean) / ((a.count + 1 : ℤ) : ℚ) =
            (a.mean * (((a.count + 1 : ℤ) : ℚ) - 1) + f * 1) /
              ((((a.count + 1 : ℤ) : ℚ) - 1) + 1) := by
          field_simp
          ring
        constructor
        · show (if f < a.min then f else a.min) ≤ (if a.count + 1 = 1 then f else _)
          rw [if_neg hc, heq]
          have hm1 : (if f < a.min then f else a.min) ≤ a.mean := by
            by_cases hf : f < a.min
            · rw [if_pos hf]; linarith
            · rw [if_neg hf]; exact hlm
          have hm2 : (if f < a.min then f else a.min) ≤ f := by
            by_cases hf : f < a.min
            · rw [if_pos hf]
            · rw [if_neg hf]; exact not_lt.mp hf
          exact convex_lower _ _ _ _ _ (by linarith) one_pos hm1 hm2
        · show (if a.count + 1 = 1 then f else _) ≤ (if f > a.max then f else a.max)
          rw [if_neg hc, heq]
          have hm1 : a.mean ≤ (if f > a.max then f else a.max) := by
            by_cases hf : f > a.max
            · rw [if_pos hf]; linarith
            · rw [if_neg hf]; exact hum
          have hm2 : f ≤ (if f > a.max then f else a.max) := by
            by_cases hf : f > a.max
            · rw [if_pos hf]
            · rw [if_neg hf]; exact not_lt.mp hf
          exact convex_upper _ _ _ _ _ (by linarith) one_pos hm1 hm2

lemma distInv_merge (bounds : List ℚ) (a b : AggregationDistributionValue)
    (ha : DistInv bounds a) (hb : DistInv bounds b) :
    DistInv bounds (a.mergeDist b) := by
  obtain ⟨hba, hla, hca, hsa, hma⟩ := ha
  obtain ⟨hbb, hlb, hcb, hsb, hmb⟩ := hb
  by_cases h : b.count = 0
  · rw [show a.mergeDist b = a by simp [AggregationDistributionValue.mergeDist, h]]
    exact ⟨hba, hla, hca, hsa, hma⟩
  · rw [mergeDist_pos a b h]
    have hlen : b.countPerBucket.length ≤ a.countPerBucket.length := by
      rw [hla, hlb]
    have hb1 : 1 ≤ b.count := by omega
    have hqb : (0 : ℚ) < (b.count : ℚ) := by exact_mod_cast by omega
    obtain ⟨hbm1, hbm2⟩ := hmb hb1
    refine ⟨hba, ?_, show (0 : ℤ) ≤ a.count + b.count by omega, ?_, ?_⟩
    · show (addBuckets a.countPerBucket b.countPerBucket).length = bounds.length + 1
      rw [length_addBuckets _ _ hlen, hla]
    · show a.count + b.count = (addBuckets a.countPerBucket b.countPerBucket).sum
      rw [sum_addBuckets _ _ hlen, ← hsa, ← hsb]
    · intro _
      have hcast : ((a.count + b.count : ℤ) : ℚ) = (a.count : ℚ) + (b.count : ℚ) := by
        push_cast
        ring
      have hm1 : (if b.min < a.min then b.min else a.min) ≤ a.min := by
        by_cases hf : b.min < a.min
        · rw [if_pos hf]; linarith
        · rw [if_neg hf]
      have hm2 : (if b.min < a.min then b.min else a.min) ≤ b.min := by
        by_cases hf : b.min < a.min
        · rw [if_pos hf]
        · rw [if_neg hf]; exact not_lt.mp hf
      have hx1 : a.max ≤ (if b.max > a.max then b.max else a.max) := by
        by_cases hf : b.max > a.max
        · rw [if_pos hf]; linarith
        · rw [if_neg hf]
      have hx2 : b.max ≤ (if b.max > a.max then b.max else a.max) := by
        by_cases hf : b.max > a.max
        · rw [if_pos hf]
        · rw [if_neg hf]; exact not_lt.mp hf
      by_cases hac : a.count = 0
      · have hmean : (a.mean * (a.count : ℚ) + b.mean * (b.count : ℚ)) /
            ((a.count + b.count : ℤ) : ℚ) = b.mean := by
          rw [hcast, hac]
          push_cast
          field_simp
        constructor
        · show (if b.min < a.min then b.min else a.min) ≤ _
          rw [hmean]
          linarith
        · show _ ≤ (if b.max > a.max then b.max else a.max)
          rw [hmean]
          linarith
      · have ha1 : 1 ≤ a.count := by omega
        have hqa : (0 : ℚ) < (a.count : ℚ) := by exact_mod_cast by omega
        obtain ⟨ham1, ham2⟩ := hma ha1
        constructor
        · show (if b.min < a.min then b.min else a.min) ≤ _
          rw [hcast]
          exact convex_lower _ _ _ _ _ hqa hqb (by linarith) (by linarith)
        · show _ ≤ (if b.max > a.max then b.max else a.max)
          rw [hcast]
          exact convex_upper _ _ _ _ _ hqa hqb (by linarith) (by linarith)

/-- C5: every distribution state reachable from the zeroed state by numeric
addSample calls and merges of reachable states satisfies
count = Σ countPerBucket, and once count ≥ 1 also min ≤ mean ≤ max. -/
theorem distribution_invariant (bounds : List ℚ) (a : AggregationDistributionValue)
    (h : DistReachable bounds a) :
    a.count = a.countPerBucket.sum ∧
    (1 ≤ a.count → a.min ≤ a.mean ∧ a.mean ≤ a.max) := by
  have hinv : DistInv bounds a := by
    induction h with
    | init => exact distInv_init bounds
    | step a' v _ ih => exact distInv_addSample bounds a' v ih
    | merge a' b' _ _ iha ihb => exact distInv_merge bounds a' b' iha ihb
  exact ⟨hinv.2.2.2.1, hinv.2.2.2.2⟩

/-- C5 witness: the invariant holds for the concrete reachable state obtained
by one sample 2 over bounds [1]. -/
theorem distribution_invariant_witness :
    ((newAggregationDistributionValue [1]).addSample (Sample.f64 2)).count =
      ((newAggregationDistributionValue [1]).addSample (Sample.f64 2)).countPerBucket.sum ∧
    (1 ≤ ((newAggregationDistributionValue [1]).addSample (Sample.f64 2)).count →
      ((newAggregationDistributionValue [1]).addSample (Sample.f64 2)).min ≤
        ((newAggregationDistributionValue [1]).addSample (Sample.f64 2)).mean ∧
      ((newAggregationDistributionValue [1]).addSample (Sample.f64 2)).mean ≤
        ((newAggregationDistributionValue [1]).addSample (Sample.f64 2)).max) :=
  distribution_invariant [1] _
    (DistReachable.step _ (Sample.f64 2) DistReachable.init)
